import Mathlib

set_option maxHeartbeats 1000000

/-!
Shallow embedding of the free-ranges interval-set library.

A set of closed integer intervals is stored in ascending order; the comparator
treats two intervals as equal exactly when they overlap or share an endpoint.
Machine integers (usize) are modelled as Nat together with explicit checked
arithmetic: an increment above USIZE_MAX or a decrement below zero returns an
error value, mirroring the overflow panic of the original arithmetic.  The
backing ordered set is modelled as a list sorted by the comparator; lookup,
insertion and removal walk the list in ascending order and stop at the first
element that compares greater than the probe, which matches the search of the
ordered container over its stored elements.
-/

def USIZE_MAX : Nat := 18446744073709551615

inductive ArithError where
  | underflow
  | overflow
deriving DecidableEq

def checkedAdd1 (x : Nat) : Except ArithError Nat :=
  if x = USIZE_MAX then .error .overflow else .ok (x + 1)

def checkedSub1 (x : Nat) : Except ArithError Nat :=
  if x = 0 then .error .underflow else .ok (x - 1)

structure Range where
  min : Nat
  max : Nat
deriving DecidableEq

def EMPTY_RANGE : Range := ⟨1, 0⟩

def Range.id (i : Nat) : Range := ⟨i, i⟩

def Range.empty (r : Range) : Bool := decide (r.max < r.min)

def Range.push_front (r : Range) : Except ArithError Range :=
  match checkedSub1 r.min with
  | .error e => .error e
  | .ok m => .ok ⟨m, r.max⟩

def Range.push_back (r : Range) : Except ArithError Range :=
  match checkedAdd1 r.max with
  | .error e => .error e
  | .ok m => .ok ⟨r.min, m⟩

def Range.pop_front (r : Range) : Except ArithError Range :=
  match checkedAdd1 r.min with
  | .error e => .error e
  | .ok m => .ok ⟨m, r.max⟩

def Range.pop_back (r : Range) : Except ArithError Range :=
  match checkedSub1 r.max with
  | .error e => .error e
  | .ok m => .ok ⟨r.min, m⟩

def Range.merge (a other : Range) : Range :=
  ⟨Nat.min a.min other.min, Nat.max a.max other.max⟩

def Range.contains (r : Range) (value : Nat) : Bool :=
  decide (r.min ≤ value) && decide (value ≤ r.max)

def Range.split (r : Range) (middle : Nat) : Except ArithError (Range × Range) :=
  if middle = 0 then
    match r.pop_front with
    | .error e => .error e
    | .ok r2 => .ok (EMPTY_RANGE, r2)
  else
    match checkedSub1 middle with
    | .error e => .error e
    | .ok lo =>
      match checkedAdd1 middle with
      | .error e => .error e
      | .ok hi => .ok (⟨r.min, lo⟩, ⟨hi, r.max⟩)

def rangeCmp (a other : Range) : Ordering :=
  if a.contains other.min || a.contains other.max
      || other.contains a.min || other.contains a.max then
    Ordering.eq
  else if a.min < other.min then Ordering.lt
  else if other.min < a.min then Ordering.gt
  else Ordering.eq

def btGet : List Range → Range → Option Range
  | [], _ => none
  | e :: rest, probe =>
    match rangeCmp probe e with
    | .lt => none
    | .eq => some e
    | .gt => btGet rest probe

def btContains (s : List Range) (probe : Range) : Bool := (btGet s probe).isSome

def btInsert : List Range → Range → List Range
  | [], x => [x]
  | e :: rest, x =>
    match rangeCmp x e with
    | .lt => x :: e :: rest
    | .eq => e :: rest
    | .gt => e :: btInsert rest x

def btRemove : List Range → Range → List Range
  | [], _ => []
  | e :: rest, probe =>
    match rangeCmp probe e with
    | .lt => e :: rest
    | .eq => rest
    | .gt => e :: btRemove rest probe

namespace FreeRanges

def new : List Range := []

def with_initial_range (range : Range) : List Range := btInsert [] range

def with_all_free : List Range := with_initial_range ⟨0, USIZE_MAX⟩

def do_set_free (s : List Range) (range : Range) : Except ArithError (List Range) :=
  match (if 0 < range.min then range.push_front else .ok range) with
  | .error e => .error e
  | .ok range_front =>
    match range.push_back with
    | .error e => .error e
    | .ok range_back =>
      match btGet s range_front, btGet s range_back with
      | some front_range, some back_range =>
        .ok (btInsert (btRemove (btRemove s front_range) back_range)
              ((front_range.merge range).merge back_range))
      | some front_range, none =>
        .ok (btInsert (btRemove s front_range) (front_range.merge range))
      | none, some back_range =>
        .ok (btInsert (btRemove s back_range) (back_range.merge range))
      | none, none =>
        .ok (btInsert s range)

def set_free (s : List Range) (index : Nat) : Except ArithError (Bool × List Range) :=
  if btContains s (Range.id index) then .ok (false, s)
  else
    match do_set_free s (Range.id index) with
    | .error e => .error e
    | .ok s2 => .ok (true, s2)

def set_range_free (s : List Range) (range : Range) : Except ArithError (Bool × List Range) :=
  match btGet s (Range.id range.min), btGet s (Range.id range.max) with
  | some front_check, some back_check =>
    if rangeCmp front_check back_check = Ordering.eq then .ok (false, s)
    else
      match do_set_free s range with
      | .error e => .error e
      | .ok s2 => .ok (true, s2)
  | _, _ =>
    match do_set_free s range with
    | .error e => .error e
    | .ok s2 => .ok (true, s2)

def set_used (s : List Range) (index : Nat) : Except ArithError (Bool × List Range) :=
  match btGet s (Range.id index) with
  | some intersecting =>
    let s1 := btRemove s intersecting
    match intersecting.split index with
    | .error e => .error e
    | .ok (left, right) =>
      let s2 := if left.empty then s1 else btInsert s1 left
      let s3 := if right.empty then s2 else btInsert s2 right
      .ok (true, s3)
  | none => .ok (false, s)

def first (s : List Range) : Option Nat := s.head?.map Range.min

def set_first_used (s : List Range) : Except ArithError (Option Nat × List Range) :=
  match s.head? with
  | some f =>
    let s1 := btRemove s f
    match f.pop_front with
    | .error e => .error e
    | .ok range => .ok (some f.min, if range.empty then s1 else btInsert s1 range)
  | none => .ok (none, s)

def last (s : List Range) : Option Nat := s.getLast?.map Range.max

def set_last_used (s : List Range) : Except ArithError (Option Nat × List Range) :=
  match s.getLast? with
  | some l =>
    let s1 := btRemove s l
    if l.max ≠ 0 then
      match l.pop_back with
      | .error e => .error e
      | .ok range => .ok (some l.max, if range.empty then s1 else btInsert s1 range)
    else .ok (some l.max, s1)
  | none => .ok (none, s)

def remove_last_contiguous (s : List Range) : List Range :=
  match last s with
  | some m => btRemove s (Range.id m)
  | none => s

def is_free (s : List Range) (index : Nat) : Bool :=
  (btGet s (Range.id index)).isSome

def clear (_ : List Range) : List Range := []

end FreeRanges

/-! Specification-side definitions used to state the claims. -/

def wfRange (r : Range) : Prop := r.min ≤ r.max ∧ r.max ≤ USIZE_MAX

def Rgap (a b : Range) : Prop := a.max + 1 < b.min

def SetInv (s : List Range) : Prop :=
  (∀ r ∈ s, wfRange r) ∧ List.Pairwise Rgap s

def freeMem (s : List Range) (j : Nat) : Prop := ∃ r ∈ s, r.contains j = true

def combineWith (fo bo : Option Range) (i : Nat) : Range :=
  ⟨(match fo with | some f => f.min | none => i),
   (match bo with | some b => b.max | none => i)⟩

instance (r : Range) : Decidable (wfRange r) := by unfold wfRange; infer_instance

instance (a b : Range) : Decidable (Rgap a b) := by unfold Rgap; infer_instance

def decPairwiseRgap : (l : List Range) → Decidable (List.Pairwise Rgap l)
  | [] => isTrue List.Pairwise.nil
  | a :: t =>
    have : Decidable (List.Pairwise Rgap t) := decPairwiseRgap t
    decidable_of_iff ((∀ b ∈ t, Rgap a b) ∧ List.Pairwise Rgap t) List.pairwise_cons.symm

instance (l : List Range) : Decidable (List.Pairwise Rgap l) := decPairwiseRgap l

instance (s : List Range) : Decidable (SetInv s) := by unfold SetInv; infer_instance

instance (s : List Range) (j : Nat) : Decidable (freeMem s j) := by unfold freeMem; infer_instance

/-! Basic facts about the comparator.  On well-formed ranges (min at most max)
the comparator classifies a pair as equal exactly when the two ranges share at
least one index, and as lt or gt exactly when one lies strictly left or
strictly right of the other. -/

theorem contains_iff {r : Range} {v : Nat} :
    r.contains v = true ↔ r.min ≤ v ∧ v ≤ r.max := by
  simp [Range.contains]

theorem contains_false_iff {r : Range} {v : Nat} :
    r.contains v = false ↔ ¬ (r.min ≤ v ∧ v ≤ r.max) := by
  rw [← Bool.not_eq_true, contains_iff]

theorem rangeCmp_eq_iff {a b : Range} (ha : a.min ≤ a.max) (hb : b.min ≤ b.max) :
    rangeCmp a b = .eq ↔ (a.min ≤ b.max ∧ b.min ≤ a.max) := by
  unfold rangeCmp
  simp only [Range.contains, Bool.or_eq_true, Bool.and_eq_true, decide_eq_true_eq]
  split_ifs with h1 h2 h3 <;> simp <;> omega

theorem rangeCmp_lt_iff {a b : Range} (ha : a.min ≤ a.max) (hb : b.min ≤ b.max) :
    rangeCmp a b = .lt ↔ a.max < b.min := by
  unfold rangeCmp
  simp only [Range.contains, Bool.or_eq_true, Bool.and_eq_true, decide_eq_true_eq]
  split_ifs with h1 h2 h3 <;> simp <;> omega

theorem rangeCmp_gt_iff {a b : Range} (ha : a.min ≤ a.max) (hb : b.min ≤ b.max) :
    rangeCmp a b = .gt ↔ b.max < a.min := by
  unfold rangeCmp
  simp only [Range.contains, Bool.or_eq_true, Bool.and_eq_true, decide_eq_true_eq]
  split_ifs with h1 h2 h3 <;> simp <;> omega

theorem rangeCmp_point_eq_iff {e : Range} (he : e.min ≤ e.max) (x : Nat) :
    rangeCmp (Range.id x) e = .eq ↔ e.contains x = true := by
  rw [rangeCmp_eq_iff (Nat.le_refl x) he, contains_iff]
  constructor <;> intro h <;> exact ⟨h.2, h.1⟩

theorem rangeCmp_lt_of_Rgap {a b : Range} (ha : a.min ≤ a.max) (hb : b.min ≤ b.max)
    (h : Rgap a b) : rangeCmp a b = .lt := by
  rw [rangeCmp_lt_iff ha hb]; unfold Rgap at h; omega

theorem rangeCmp_gt_of_Rgap {a b : Range} (ha : a.min ≤ a.max) (hb : b.min ≤ b.max)
    (h : Rgap b a) : rangeCmp a b = .gt := by
  rw [rangeCmp_gt_iff ha hb]; unfold Rgap at h; omega

theorem Rgap_asymm {a b : Range} (ha : a.min ≤ a.max) (hb : b.min ≤ b.max)
    (hab : Rgap a b) (hba : Rgap b a) : False := by
  unfold Rgap at hab hba; omega

theorem Rgap_irrefl {a : Range} (ha : a.min ≤ a.max) (h : Rgap a a) : False := by
  unfold Rgap at h; omega

/-! Structural facts about the invariant. -/

theorem SetInv.wf {s : List Range} (h : SetInv s) : ∀ r ∈ s, wfRange r := h.1

theorem SetInv.pw {s : List Range} (h : SetInv s) : List.Pairwise Rgap s := h.2

theorem SetInv.head_gap {a : Range} {t : List Range} (h : SetInv (a :: t)) :
    ∀ b ∈ t, Rgap a b := (List.pairwise_cons.mp h.2).1

theorem SetInv.tail {a : Range} {t : List Range} (h : SetInv (a :: t)) : SetInv t :=
  ⟨fun r hr => h.1 r (List.mem_cons_of_mem a hr), (List.pairwise_cons.mp h.2).2⟩

theorem SetInv.total {s : List Range} {a b : Range} (h : SetInv s) (ha : a ∈ s)
    (hb : b ∈ s) (hne : a ≠ b) : Rgap a b ∨ Rgap b a := by
  induction s with
  | nil => cases ha
  | cons x t ih =>
    rcases List.mem_cons.mp ha with rfl | hat
    · rcases List.mem_cons.mp hb with rfl | hbt
      · exact absurd rfl hne
      · exact Or.inl (h.head_gap b hbt)
    · rcases List.mem_cons.mp hb with rfl | hbt
      · exact Or.inr (h.head_gap a hat)
      · exact ih h.tail hat hbt

theorem SetInv.uniq_contains {s : List Range} {a b : Range} {v : Nat} (h : SetInv s)
    (ha : a ∈ s) (hb : b ∈ s) (hva : a.contains v = true) (hvb : b.contains v = true) :
    a = b := by
  by_contra hne
  rw [contains_iff] at hva hvb
  rcases h.total ha hb hne with hg | hg <;> (unfold Rgap at hg; omega)

/-! Lookup, removal and insertion on the sorted list model. -/

theorem btGet_none {s : List Range} {p : Range}
    (h : ∀ e ∈ s, rangeCmp p e ≠ .eq) : btGet s p = none := by
  induction s with
  | nil => rfl
  | cons x t ih =>
    unfold btGet
    rcases hc : rangeCmp p x with _ | _ | _
    · rfl
    · exact absurd hc (h x (List.mem_cons_self x t))
    · exact ih fun e he => h e (List.mem_cons_of_mem x he)

theorem btGet_some_spec {s : List Range} {p e : Range} (h : btGet s p = some e) :
    e ∈ s ∧ rangeCmp p e = .eq := by
  induction s with
  | nil => cases h
  | cons x t ih =>
    unfold btGet at h
    rcases hc : rangeCmp p x with _ | _ | _ <;> rw [hc] at h
    · cases h
    · injection h with hh
      subst hh
      exact ⟨List.mem_cons_self _ _, hc⟩
    · rcases ih h with ⟨hm, hq⟩
      exact ⟨List.mem_cons_of_mem x hm, hq⟩

theorem btGet_some {s : List Range} {p e : Range} (hInv : SetInv s)
    (hp : p.min ≤ p.max) (he : e ∈ s) (heq : rangeCmp p e = .eq)
    (huniq : ∀ a ∈ s, rangeCmp p a = .eq → a = e) : btGet s p = some e := by
  induction s with
  | nil => cases he
  | cons x t ih =>
    unfold btGet
    rcases hc : rangeCmp p x with _ | _ | _
    · exfalso
      have hwx := hInv.wf x (List.mem_cons_self x t)
      have hwx1 := hwx.1
      have hplt := (rangeCmp_lt_iff hp hwx1).mp hc
      rcases List.mem_cons.mp he with rfl | het
      · rw [heq] at hc; cases hc
      · have hg := hInv.head_gap e het
        have hwe1 := (hInv.wf e (List.mem_cons_of_mem x het)).1
        have hov := (rangeCmp_eq_iff hp hwe1).mp heq
        unfold Rgap at hg
        omega
    · rw [huniq x (List.mem_cons_self x t) hc]
    · rcases List.mem_cons.mp he with rfl | het
      · rw [heq] at hc; cases hc
      · exact ih hInv.tail het fun a ha hqa =>
          huniq a (List.mem_cons_of_mem x ha) hqa

theorem btRemove_sublist : ∀ (s : List Range) (p : Range), (btRemove s p).Sublist s := by
  intro s p
  induction s with
  | nil => exact List.Sublist.refl []
  | cons x t ih =>
    unfold btRemove
    rcases rangeCmp p x with _ | _ | _
    · exact List.Sublist.refl _
    · exact List.sublist_cons_self x t
    · exact List.Sublist.cons₂ x ih

theorem SetInv.btRemove {s : List Range} (h : SetInv s) (p : Range) :
    SetInv (btRemove s p) :=
  ⟨fun r hr => h.1 r ((btRemove_sublist s p).mem hr),
   h.2.sublist (btRemove_sublist s p)⟩

theorem btRemove_mem_iff {s : List Range} {e : Range} (hInv : SetInv s) (he : e ∈ s) :
    ∀ a, a ∈ btRemove s e ↔ (a ∈ s ∧ a ≠ e) := by
  induction s with
  | nil => cases he
  | cons x t ih =>
    intro a
    have hwx1 := (hInv.wf x (List.mem_cons_self x t)).1
    have hwe1 := (hInv.wf e he).1
    unfold btRemove
    rcases hc : rangeCmp e x with _ | _ | _
    · exfalso
      have hlt := (rangeCmp_lt_iff hwe1 hwx1).mp hc
      rcases List.mem_cons.mp he with rfl | het
      · omega
      · have hg := hInv.head_gap e het
        unfold Rgap at hg
        omega
    · have hxe : x = e := by
        by_contra hne
        have heq := (rangeCmp_eq_iff hwe1 hwx1).mp hc
        rcases hInv.total (List.mem_cons_self x t) he hne with hg | hg <;>
          (unfold Rgap at hg; omega)
      subst hxe
      constructor
      · intro hat
        refine ⟨List.mem_cons_of_mem x hat, ?_⟩
        rintro rfl
        exact Rgap_irrefl hwx1 (hInv.head_gap a hat)
      · rintro ⟨hax, hne⟩
        rcases List.mem_cons.mp hax with rfl | hat
        · exact absurd rfl hne
        · exact hat
    · have hxe : x ≠ e := by
        intro hh
        rw [hh] at hc
        have hself : rangeCmp e e = .eq := by
          rw [rangeCmp_eq_iff hwe1 hwe1]
          omega
        rw [hself] at hc
        cases hc
      have het : e ∈ t := by
        rcases List.mem_cons.mp he with rfl | het
        · exact absurd rfl hxe
        · exact het
      rw [List.mem_cons, ih hInv.tail het a, List.mem_cons]
      constructor
      · rintro (rfl | ⟨hat, hne⟩)
        · exact ⟨Or.inl rfl, fun hh => hxe hh⟩
        · exact ⟨Or.inr hat, hne⟩
      · rintro ⟨rfl | hat, hne⟩
        · exact Or.inl rfl
        · exact Or.inr ⟨hat, hne⟩

theorem btRemove_noeq {s : List Range} {p : Range}
    (h : ∀ a ∈ s, rangeCmp p a ≠ .eq) : btRemove s p = s := by
  induction s with
  | nil => rfl
  | cons x t ih =>
    unfold btRemove
    rcases hc : rangeCmp p x with _ | _ | _
    · rfl
    · exact absurd hc (h x (List.mem_cons_self x t))
    · rw [ih fun a ha => h a (List.mem_cons_of_mem x ha)]

theorem btInsert_spec {s : List Range} {x : Range} (hpw : List.Pairwise Rgap s)
    (hwall : ∀ r ∈ s, wfRange r) (hx : wfRange x)
    (hcomp : ∀ e ∈ s, Rgap x e ∨ Rgap e x) :
    List.Pairwise Rgap (btInsert s x) ∧
      (∀ a, a ∈ btInsert s x ↔ a = x ∨ a ∈ s) ∧
      (∀ r ∈ btInsert s x, wfRange r) := by
  induction s with
  | nil =>
    unfold btInsert
    refine ⟨List.pairwise_cons.mpr ⟨fun b hb => absurd hb (List.not_mem_nil b), .nil⟩,
        fun a => ?_, fun r hr => ?_⟩
    · simp
    · rcases List.mem_singleton.mp hr with rfl
      exact hx
  | cons e t ih =>
    have hwe := hwall e (List.mem_cons_self e t)
    have hwe1 := hwe.1
    have hgap := (List.pairwise_cons.mp hpw).1
    have hpwt := (List.pairwise_cons.mp hpw).2
    unfold btInsert
    rcases hcomp e (List.mem_cons_self e t) with hxe | hex
    · rw [rangeCmp_lt_of_Rgap hx.1 hwe1 hxe]
      refine ⟨List.pairwise_cons.mpr ⟨?_, hpw⟩, fun a => ?_, fun r hr => ?_⟩
      · intro b hb
        rcases List.mem_cons.mp hb with rfl | hbt
        · exact hxe
        · have hgb := hgap b hbt
          unfold Rgap at hxe hgb ⊢
          omega
      · simp
      · rcases List.mem_cons.mp hr with rfl | hre
        · exact hx
        · exact hwall r hre
    · rw [rangeCmp_gt_of_Rgap hx.1 hwe1 hex]
      rcases ih hpwt (fun r hr => hwall r (List.mem_cons_of_mem e hr))
          (fun a ha => hcomp a (List.mem_cons_of_mem e ha)) with ⟨hpw2, hmem2, hw2⟩
      refine ⟨List.pairwise_cons.mpr ⟨?_, hpw2⟩, fun a => ?_, fun r hr => ?_⟩
      · intro b hb
        rcases (hmem2 b).mp hb with rfl | hbt
        · exact hex
        · exact hgap b hbt
      · rw [List.mem_cons, hmem2 a, List.mem_cons]
        tauto
      · rcases List.mem_cons.mp hr with rfl | hrt
        · exact hwe
        · exact hw2 r hrt

/-! Two lists sorted under the gap order with the same members are equal. -/

theorem sorted_eq_of_mem_iff : ∀ (l1 l2 : List Range),
    (∀ r ∈ l1, wfRange r) → List.Pairwise Rgap l1 → List.Pairwise Rgap l2 →
    (∀ a, a ∈ l1 ↔ a ∈ l2) → l1 = l2 := by
  intro l1
  induction l1 with
  | nil =>
    intro l2 _ _ _ hm
    cases l2 with
    | nil => rfl
    | cons y t2 => exact absurd ((hm y).mpr (List.mem_cons_self y t2)) (List.not_mem_nil y)
  | cons x t1 ih =>
    intro l2 hw h1 h2 hm
    cases l2 with
    | nil => exact absurd ((hm x).mp (List.mem_cons_self x t1)) (List.not_mem_nil x)
    | cons y t2 =>
      have hwx := hw x (List.mem_cons_self x t1)
      have hg1 := (List.pairwise_cons.mp h1).1
      have hg2 := (List.pairwise_cons.mp h2).1
      have hxy : x = y := by
        by_contra hne
        rcases List.mem_cons.mp ((hm x).mp (List.mem_cons_self x t1)) with rfl | hxt2
        · exact hne rfl
        · rcases List.mem_cons.mp ((hm y).mpr (List.mem_cons_self y t2)) with rfl | hyt1
          · exact hne rfl
          · have hay := hg1 y hyt1
            have hax := hg2 x hxt2
            have hwy := hw y (List.mem_cons_of_mem x hyt1)
            exact Rgap_asymm hwx.1 hwy.1 hay hax
      subst hxy
      have hmt : ∀ a, a ∈ t1 ↔ a ∈ t2 := by
        intro a
        constructor
        · intro hat
          rcases List.mem_cons.mp ((hm a).mp (List.mem_cons_of_mem x hat)) with rfl | h2t
          · exact absurd (hg1 a hat) (Rgap_irrefl hwx.1)
          · exact h2t
        · intro hat
          rcases List.mem_cons.mp ((hm a).mpr (List.mem_cons_of_mem x hat)) with rfl | h1t
          · exact absurd (hg2 a hat) (Rgap_irrefl hwx.1)
          · exact h1t
      rw [ih t2 (fun r hr => hw r (List.mem_cons_of_mem x hr))
        (List.pairwise_cons.mp h1).2 (List.pairwise_cons.mp h2).2 hmt]

/-! Point lookup: under the invariant, probing with a one-index range finds the
unique stored interval containing that index, if any. -/

theorem btGet_point_none {s : List Range} {x : Nat} (hInv : SetInv s)
    (h : ∀ e ∈ s, e.contains x = false) : btGet s (Range.id x) = none := by
  apply btGet_none
  intro e he hq
  have hc := (rangeCmp_point_eq_iff (hInv.wf e he).1 x).mp hq
  rw [h e he] at hc
  cases hc

theorem btGet_point_some {s : List Range} {e : Range} {x : Nat} (hInv : SetInv s)
    (he : e ∈ s) (hc : e.contains x = true) : btGet s (Range.id x) = some e := by
  apply btGet_some hInv (Nat.le_refl x) he
  · exact (rangeCmp_point_eq_iff (hInv.wf e he).1 x).mpr hc
  · intro a ha hq
    exact hInv.uniq_contains ha he
      ((rangeCmp_point_eq_iff (hInv.wf a ha).1 x).mp hq) hc

theorem is_free_iff {s : List Range} {x : Nat} (hInv : SetInv s) :
    FreeRanges.is_free s x = true ↔ freeMem s x := by
  constructor
  · intro h
    unfold FreeRanges.is_free at h
    rcases Option.isSome_iff_exists.mp h with ⟨e, hge⟩
    rcases btGet_some_spec hge with ⟨hm, hq⟩
    exact ⟨e, hm, (rangeCmp_point_eq_iff (hInv.wf e hm).1 x).mp hq⟩
  · rintro ⟨e, hm, hc⟩
    unfold FreeRanges.is_free
    rw [btGet_point_some hInv hm hc]
    rfl

theorem is_free_false_iff {s : List Range} {x : Nat} (hInv : SetInv s) :
    FreeRanges.is_free s x = false ↔ ∀ e ∈ s, e.contains x = false := by
  rw [← Bool.not_eq_true, is_free_iff hInv]
  unfold freeMem
  constructor
  · intro h e he
    rcases Bool.eq_false_or_eq_true (e.contains x) with hf | ht
    · exact absurd ⟨e, he, hf⟩ h
    · exact ht
  · rintro h ⟨e, he, hc⟩
    rw [h e he] at hc
    cases hc

/-! Characterization of the two neighbor probes used by the freeing merge
routine, for a point index that is not itself free. -/

theorem probe_front_eq_iff {e : Range} {i : Nat} (hwe1 : e.min ≤ e.max)
    (hni : e.contains i = false) (hi : 0 < i) :
    rangeCmp ⟨i - 1, i⟩ e = .eq ↔ e.contains (i - 1) = true := by
  rw [rangeCmp_eq_iff (show i - 1 ≤ i by omega) hwe1]
  rw [contains_false_iff] at hni
  rw [contains_iff]
  show (i - 1 ≤ e.max ∧ e.min ≤ i) ↔ (e.min ≤ i - 1 ∧ i - 1 ≤ e.max)
  omega

theorem probe_back_eq_iff {e : Range} {i : Nat} (hwe1 : e.min ≤ e.max)
    (hni : e.contains i = false) :
    rangeCmp ⟨i, i + 1⟩ e = .eq ↔ e.contains (i + 1) = true := by
  rw [rangeCmp_eq_iff (show i ≤ i + 1 by omega) hwe1]
  rw [contains_false_iff] at hni
  rw [contains_iff]
  show (i ≤ e.max ∧ e.min ≤ i + 1) ↔ (e.min ≤ i + 1 ∧ i + 1 ≤ e.max)
  omega

/-! Reduction of the freeing merge routine on a point probe below the top
index: the two checked increments succeed and the routine is the four-way
case split on the neighbor lookups. -/

theorem do_set_free_point_reduce {s : List Range} {i : Nat} (hiM : i < USIZE_MAX) :
    FreeRanges.do_set_free s (Range.id i) =
      match btGet s (if 0 < i then ⟨i - 1, i⟩ else ⟨i, i⟩), btGet s ⟨i, i + 1⟩ with
      | some fr, some br =>
        .ok (btInsert (btRemove (btRemove s fr) br) ((fr.merge (Range.id i)).merge br))
      | some fr, none => .ok (btInsert (btRemove s fr) (fr.merge (Range.id i)))
      | none, some br => .ok (btInsert (btRemove s br) (br.merge (Range.id i)))
      | none, none => .ok (btInsert s (Range.id i)) := by
  have hM : ¬ i = USIZE_MAX := by omega
  rcases Nat.eq_zero_or_pos i with rfl | hi
  · simp only [FreeRanges.do_set_free, Range.id, Range.push_back, checkedAdd1,
      if_neg hM, Nat.lt_irrefl, if_false]
  · have h0 : ¬ i = 0 := by omega
    simp only [FreeRanges.do_set_free, Range.id, Range.push_front, Range.push_back,
      checkedSub1, checkedAdd1, if_neg hM, if_neg h0, if_pos hi]

/-! The neighbor lookups of the point merge routine find exactly the stored
interval ending at the previous index and the one starting at the next. -/

theorem front_get_some {s : List Range} {i : Nat} {f : Range} (hInv : SetInv s)
    (hni : ∀ e ∈ s, e.contains i = false) (hi : 0 < i)
    (h : btGet s ⟨i - 1, i⟩ = some f) : f ∈ s ∧ f.min ≤ i - 1 ∧ f.max = i - 1 := by
  rcases btGet_some_spec h with ⟨hm, hq⟩
  have hc := (probe_front_eq_iff (hInv.wf f hm).1 (hni f hm) hi).mp hq
  rw [contains_iff] at hc
  have hnf := hni f hm
  rw [contains_false_iff] at hnf
  have hwf1 := (hInv.wf f hm).1
  refine ⟨hm, ?_, ?_⟩ <;> omega

theorem front_get_none {s : List Range} {i : Nat} (hInv : SetInv s)
    (hni : ∀ e ∈ s, e.contains i = false) (hi : 0 < i)
    (h : btGet s ⟨i - 1, i⟩ = none) : ∀ e ∈ s, e.contains (i - 1) = false := by
  intro e he
  by_contra hcne
  rw [Bool.not_eq_false] at hcne
  have huniq : ∀ a ∈ s, rangeCmp ⟨i - 1, i⟩ a = .eq → a = e := fun a ha hq =>
    hInv.uniq_contains ha he
      ((probe_front_eq_iff (hInv.wf a ha).1 (hni a ha) hi).mp hq) hcne
  have hsome := btGet_some hInv (show i - 1 ≤ i from by omega) he
    ((probe_front_eq_iff (hInv.wf e he).1 (hni e he) hi).mpr hcne) huniq
  rw [h] at hsome
  cases hsome

theorem back_get_some {s : List Range} {i : Nat} {b : Range} (hInv : SetInv s)
    (hni : ∀ e ∈ s, e.contains i = false)
    (h : btGet s ⟨i, i + 1⟩ = some b) : b ∈ s ∧ b.min = i + 1 ∧ i + 1 ≤ b.max := by
  rcases btGet_some_spec h with ⟨hm, hq⟩
  have hc := (probe_back_eq_iff (hInv.wf b hm).1 (hni b hm)).mp hq
  rw [contains_iff] at hc
  have hnf := hni b hm
  rw [contains_false_iff] at hnf
  have hwb1 := (hInv.wf b hm).1
  refine ⟨hm, ?_, ?_⟩ <;> omega

theorem back_get_none {s : List Range} {i : Nat} (hInv : SetInv s)
    (hni : ∀ e ∈ s, e.contains i = false)
    (h : btGet s ⟨i, i + 1⟩ = none) : ∀ e ∈ s, e.contains (i + 1) = false := by
  intro e he
  by_contra hcne
  rw [Bool.not_eq_false] at hcne
  have huniq : ∀ a ∈ s, rangeCmp ⟨i, i + 1⟩ a = .eq → a = e := fun a ha hq =>
    hInv.uniq_contains ha he
      ((probe_back_eq_iff (hInv.wf a ha).1 (hni a ha)).mp hq) hcne
  have hsome := btGet_some hInv (show i ≤ i + 1 from by omega) he
    ((probe_back_eq_iff (hInv.wf e he).1 (hni e he)).mpr hcne) huniq
  rw [h] at hsome
  cases hsome

theorem wfRange_mk {a b : Nat} (h1 : a ≤ b) (h2 : b ≤ USIZE_MAX) :
    wfRange (Range.mk a b) := ⟨h1, h2⟩

theorem wfRange_id {i : Nat} (h : i ≤ USIZE_MAX) : wfRange (Range.id i) :=
  ⟨Nat.le_refl i, h⟩

theorem insert_combined {s0 : List Range} {c : Range} (h0 : SetInv s0) (hc : wfRange c)
    (hcomp : ∀ e ∈ s0, Rgap c e ∨ Rgap e c) :
    SetInv (btInsert s0 c) ∧ ∀ a, a ∈ btInsert s0 c ↔ a = c ∨ a ∈ s0 := by
  rcases btInsert_spec h0.pw h0.wf hc hcomp with ⟨h1, h2, h3⟩
  exact ⟨⟨h3, h1⟩, h2⟩

theorem some_ne_some_iff {x y : Range} : (some x ≠ some y) ↔ y ≠ x := by
  constructor
  · intro h hh
    subst hh
    exact h rfl
  · intro h hh
    injection hh with hh2
    exact h hh2.symm

/-- Effect of the freeing merge routine on a point index that is not free, for
an index below the top one: it succeeds, removes the stored interval ending
just below the index and the one starting just above it (when they exist), and
inserts the single merged interval covering them and the index. -/
theorem do_set_free_point {s : List Range} {i : Nat} (hInv : SetInv s)
    (hiM : i < USIZE_MAX) (hni : ∀ e ∈ s, e.contains i = false) :
    ∃ (s2 : List Range) (fo bo : Option Range),
      FreeRanges.do_set_free s (Range.id i) = .ok s2 ∧ SetInv s2 ∧
      (∀ f, fo = some f → f ∈ s ∧ 0 < i ∧ f.min ≤ i - 1 ∧ f.max = i - 1) ∧
      (∀ b, bo = some b → b ∈ s ∧ b.min = i + 1 ∧ i + 1 ≤ b.max) ∧
      (fo = none → ∀ e ∈ s, e.contains (i - 1) = false ∨ i = 0) ∧
      (bo = none → ∀ e ∈ s, e.contains (i + 1) = false) ∧
      (combineWith fo bo i).min ≤ i ∧ i ≤ (combineWith fo bo i).max ∧
      (∀ a, a ∈ s2 ↔ a = combineWith fo bo i ∨
        (a ∈ s ∧ fo ≠ some a ∧ bo ≠ some a)) := by
  have hred := do_set_free_point_reduce (s := s) hiM
  rcases Nat.eq_zero_or_pos i with rfl | hipos
  · -- the front probe is the point itself, which is not free
    rw [if_neg (show ¬ 0 < 0 from by omega)] at hred
    have hFnone : btGet s (⟨0, 0⟩ : Range) = none := btGet_point_none hInv hni
    rw [hFnone] at hred
    rcases hB : btGet s (⟨0, 0 + 1⟩ : Range) with _ | b <;> rw [hB] at hred
    · -- no neighbors at all: the point is inserted alone
      have hred2 : FreeRanges.do_set_free s (Range.id 0) = .ok (btInsert s (Range.id 0)) := by
        rw [hred]
      have hbn := back_get_none hInv hni hB
      have hcomp : ∀ e ∈ s, Rgap (Range.id 0) e ∨ Rgap e (Range.id 0) := by
        intro e he
        have h0 := hni e he
        have h1 := hbn e he
        rw [contains_false_iff] at h0 h1
        have hwe1 := (hInv.wf e he).1
        left
        simp only [Rgap, Range.id]
        omega
      rcases insert_combined hInv (wfRange_id (by omega)) hcomp with ⟨hinv2, hmem2⟩
      refine ⟨_, none, none, hred2, hinv2, by rintro f ⟨⟩, by rintro b ⟨⟩,
        fun _ e he => Or.inr rfl, fun _ => hbn,
        show (0 : Nat) ≤ 0 from Nat.le_refl 0, show (0 : Nat) ≤ 0 from Nat.le_refl 0, ?_⟩
      intro a
      rw [hmem2 a]
      have hn1 : (none : Option Range) ≠ some a := fun h => Option.noConfusion h
      tauto
    · -- only a back neighbor: it is merged with the point
      rcases back_get_some hInv hni hB with ⟨hbm, hbmin, hbmax⟩
      have hwb := hInv.wf b hbm
      have hred2 : FreeRanges.do_set_free s (Range.id 0)
          = .ok (btInsert (btRemove s b) (b.merge (Range.id 0))) := by
        rw [hred]
      have hmerge : b.merge (Range.id 0) = Range.mk 0 b.max := by
        simp only [Range.merge, Range.id, Range.mk.injEq, Nat.min_def, Nat.max_def]
        constructor <;> (split_ifs <;> omega)
      rw [hmerge] at hred2
      have hs1 := hInv.btRemove b
      have hm1 := btRemove_mem_iff hInv hbm
      have hcomp : ∀ e ∈ btRemove s b, Rgap (Range.mk 0 b.max) e ∨ Rgap e (Range.mk 0 b.max) := by
        intro e he
        rcases (hm1 e).mp he with ⟨hes, hne⟩
        have hwe1 := (hInv.wf e hes).1
        rcases hInv.total hes hbm hne with hg | hg
        · exfalso
          simp only [Rgap] at hg
          omega
        · left
          simp only [Rgap] at hg ⊢
          omega
      rcases insert_combined hs1 (wfRange_mk (by omega) hwb.2) hcomp with ⟨hinv2, hmem2⟩
      refine ⟨_, none, some b, hred2, hinv2, by rintro f ⟨⟩,
        ?_, fun _ e he => Or.inr rfl, by rintro ⟨⟩,
        show (0 : Nat) ≤ 0 from Nat.le_refl 0, show (0 : Nat) ≤ b.max from by omega, ?_⟩
      · rintro b2 hb2
        injection hb2 with hb3
        subst hb3
        exact ⟨hbm, hbmin, hbmax⟩
      · intro a
        rw [hmem2 a, hm1 a]
        have hn1 : (none : Option Range) ≠ some a := fun h => Option.noConfusion h
        have hsome := some_ne_some_iff (x := b) (y := a)
        show a = Range.mk 0 b.max ∨ a ∈ s ∧ a ≠ b ↔
          a = combineWith none (some b) 0 ∨ a ∈ s ∧ none ≠ some a ∧ some b ≠ some a
        unfold combineWith
        tauto
  · -- index is positive: the front probe is the two-index range below it
    rw [if_pos hipos] at hred
    rcases hF : btGet s (⟨i - 1, i⟩ : Range) with _ | f <;>
      rcases hB : btGet s (⟨i, i + 1⟩ : Range) with _ | b <;> rw [hF, hB] at hred
    · -- no neighbors at all
      have hred2 : FreeRanges.do_set_free s (Range.id i) = .ok (btInsert s (Range.id i)) := by
        rw [hred]
      have hfn := front_get_none hInv hni hipos hF
      have hbn := back_get_none hInv hni hB
      have hcomp : ∀ e ∈ s, Rgap (Range.id i) e ∨ Rgap e (Range.id i) := by
        intro e he
        have h0 := hni e he
        have h1 := hbn e he
        have h2 := hfn e he
        rw [contains_false_iff] at h0 h1 h2
        have hwe1 := (hInv.wf e he).1
        simp only [Rgap, Range.id]
        omega
      rcases insert_combined hInv (wfRange_id (by omega)) hcomp with ⟨hinv2, hmem2⟩
      refine ⟨_, none, none, hred2, hinv2, by rintro f ⟨⟩, by rintro b ⟨⟩,
        fun _ e he => Or.inl (hfn e he), fun _ => hbn,
        show i ≤ i from Nat.le_refl i, show i ≤ i from Nat.le_refl i, ?_⟩
      intro a
      rw [hmem2 a]
      have hn1 : (none : Option Range) ≠ some a := fun h => Option.noConfusion h
      tauto
    · -- only a back neighbor
      rcases back_get_some hInv hni hB with ⟨hbm, hbmin, hbmax⟩
      have hfn := front_get_none hInv hni hipos hF
      have hwb := hInv.wf b hbm
      have hred2 : FreeRanges.do_set_free s (Range.id i)
          = .ok (btInsert (btRemove s b) (b.merge (Range.id i))) := by
        rw [hred]
      have hmerge : b.merge (Range.id i) = Range.mk i b.max := by
        simp only [Range.merge, Range.id, Range.mk.injEq, Nat.min_def, Nat.max_def]
        constructor <;> (split_ifs <;> omega)
      rw [hmerge] at hred2
      have hs1 := hInv.btRemove b
      have hm1 := btRemove_mem_iff hInv hbm
      have hcomp : ∀ e ∈ btRemove s b, Rgap (Range.mk i b.max) e ∨ Rgap e (Range.mk i b.max) := by
        intro e he
        rcases (hm1 e).mp he with ⟨hes, hne⟩
        have hwe1 := (hInv.wf e hes).1
        have h2 := hfn e hes
        rw [contains_false_iff] at h2
        rcases hInv.total hes hbm hne with hg | hg
        · right
          simp only [Rgap] at hg ⊢
          omega
        · left
          simp only [Rgap] at hg ⊢
          omega
      rcases insert_combined hs1 (wfRange_mk (by omega) hwb.2) hcomp with ⟨hinv2, hmem2⟩
      refine ⟨_, none, some b, hred2, hinv2, by rintro f ⟨⟩,
        ?_, fun _ e he => Or.inl (hfn e he), by rintro ⟨⟩,
        show i ≤ i from Nat.le_refl i, show i ≤ b.max from by omega, ?_⟩
      · rintro b2 hb2
        injection hb2 with hb3
        subst hb3
        exact ⟨hbm, hbmin, hbmax⟩
      · intro a
        rw [hmem2 a, hm1 a]
        have hn1 : (none : Option Range) ≠ some a := fun h => Option.noConfusion h
        have hsome := some_ne_some_iff (x := b) (y := a)
        show a = Range.mk i b.max ∨ a ∈ s ∧ a ≠ b ↔
          a = combineWith none (some b) i ∨ a ∈ s ∧ none ≠ some a ∧ some b ≠ some a
        unfold combineWith
        tauto
    · -- only a front neighbor
      rcases front_get_some hInv hni hipos hF with ⟨hfm, hfmin, hfmax⟩
      have hbn := back_get_none hInv hni hB
      have hwf := hInv.wf f hfm
      have hred2 : FreeRanges.do_set_free s (Range.id i)
          = .ok (btInsert (btRemove s f) (f.merge (Range.id i))) := by
        rw [hred]
      have hmerge : f.merge (Range.id i) = Range.mk f.min i := by
        simp only [Range.merge, Range.id, Range.mk.injEq, Nat.min_def, Nat.max_def]
        constructor <;> (split_ifs <;> omega)
      rw [hmerge] at hred2
      have hs1 := hInv.btRemove f
      have hm1 := btRemove_mem_iff hInv hfm
      have hcomp : ∀ e ∈ btRemove s f, Rgap (Range.mk f.min i) e ∨ Rgap e (Range.mk f.min i) := by
        intro e he
        rcases (hm1 e).mp he with ⟨hes, hne⟩
        have hwe1 := (hInv.wf e hes).1
        have h1 := hbn e hes
        rw [contains_false_iff] at h1
        rcases hInv.total hes hfm hne with hg | hg
        · right
          simp only [Rgap] at hg ⊢
          omega
        · left
          simp only [Rgap] at hg ⊢
          omega
      rcases insert_combined hs1 (wfRange_mk (by omega) (by omega)) hcomp with ⟨hinv2, hmem2⟩
      refine ⟨_, some f, none, hred2, hinv2, ?_, by rintro b ⟨⟩,
        by rintro ⟨⟩, fun _ => hbn,
        show f.min ≤ i from by omega, show i ≤ i from Nat.le_refl i, ?_⟩
      · rintro f2 hf2
        injection hf2 with hf3
        subst hf3
        exact ⟨hfm, hipos, hfmin, hfmax⟩
      · intro a
        rw [hmem2 a, hm1 a]
        have hn1 : (none : Option Range) ≠ some a := fun h => Option.noConfusion h
        have hsome := some_ne_some_iff (x := f) (y := a)
        show a = Range.mk f.min i ∨ a ∈ s ∧ a ≠ f ↔
          a = combineWith (some f) none i ∨ a ∈ s ∧ some f ≠ some a ∧ none ≠ some a
        unfold combineWith
        tauto
    · -- both neighbors: remove both and insert the three-way union
      rcases front_get_some hInv hni hipos hF with ⟨hfm, hfmin, hfmax⟩
      rcases back_get_some hInv hni hB with ⟨hbm, hbmin, hbmax⟩
      have hwf := hInv.wf f hfm
      have hwb := hInv.wf b hbm
      have hfb : b ≠ f := by
        intro hh
        subst hh
        omega
      have hred2 : FreeRanges.do_set_free s (Range.id i)
          = .ok (btInsert (btRemove (btRemove s f) b) ((f.merge (Range.id i)).merge b)) := by
        rw [hred]
      have hmerge : (f.merge (Range.id i)).merge b = Range.mk f.min b.max := by
        simp only [Range.merge, Range.id, Range.mk.injEq, Nat.min_def, Nat.max_def]
        constructor <;> (split_ifs <;> omega)
      rw [hmerge] at hred2
      have hs1 := hInv.btRemove f
      have hm1 := btRemove_mem_iff hInv hfm
      have hbs1 : b ∈ btRemove s f := (hm1 b).mpr ⟨hbm, hfb⟩
      have hs2 := hs1.btRemove b
      have hm2 := btRemove_mem_iff hs1 hbs1
      have hmm : ∀ a, a ∈ btRemove (btRemove s f) b ↔ (a ∈ s ∧ a ≠ f ∧ a ≠ b) := by
        intro a
        rw [hm2 a, hm1 a]
        tauto
      have hcomp : ∀ e ∈ btRemove (btRemove s f) b,
          Rgap (Range.mk f.min b.max) e ∨ Rgap e (Range.mk f.min b.max) := by
        intro e he
        rcases (hmm e).mp he with ⟨hes, hnef, hneb⟩
        have hwe1 := (hInv.wf e hes).1
        rcases hInv.total hes hfm hnef with hg | hg
        · right
          simp only [Rgap] at hg ⊢
          omega
        · rcases hInv.total hes hbm hneb with hg2 | hg2
          · exfalso
            simp only [Rgap] at hg hg2
            omega
          · left
            simp only [Rgap] at hg2 ⊢
            omega
      rcases insert_combined hs2 (wfRange_mk (by omega) hwb.2) hcomp with ⟨hinv2, hmem2⟩
      refine ⟨_, some f, some b, hred2, hinv2, ?_, ?_, by rintro ⟨⟩, by rintro ⟨⟩,
        show f.min ≤ i from by omega, show i ≤ b.max from by omega, ?_⟩
      · rintro f2 hf2
        injection hf2 with hf3
        subst hf3
        exact ⟨hfm, hipos, hfmin, hfmax⟩
      · rintro b2 hb2
        injection hb2 with hb3
        subst hb3
        exact ⟨hbm, hbmin, hbmax⟩
      · intro a
        rw [hmem2 a, hmm a]
        have hsf := some_ne_some_iff (x := f) (y := a)
        have hsb := some_ne_some_iff (x := b) (y := a)
        show a = Range.mk f.min b.max ∨ a ∈ s ∧ a ≠ f ∧ a ≠ b ↔
          a = combineWith (some f) (some b) i ∨ a ∈ s ∧ some f ≠ some a ∧ some b ≠ some a
        unfold combineWith
        tauto

/-- When no stored interval contains the index, marking it used is a no-op
that reports false. -/
theorem set_used_notfound {s : List Range} {i : Nat} (hInv : SetInv s)
    (h : ∀ e ∈ s, e.contains i = false) :
    FreeRanges.set_used s i = .ok (false, s) := by
  unfold FreeRanges.set_used
  rw [btGet_point_none hInv h]

theorem set_used_reduce {s : List Range} {i : Nat} {e L R : Range}
    (hget : btGet s (Range.id i) = some e)
    (hsp : e.split i = .ok (L, R)) :
    FreeRanges.set_used s i =
      .ok (true,
        if R.empty then (if L.empty then btRemove s e else btInsert (btRemove s e) L)
        else btInsert (if L.empty then btRemove s e else btInsert (btRemove s e) L) R) := by
  simp only [FreeRanges.set_used, hget, hsp]

/-- When a stored interval contains the index and the index is below the top
one, marking it used removes that interval and reinserts the two nonempty
sub-intervals strictly below and strictly above the index. -/
theorem set_used_found {s : List Range} {i : Nat} {e : Range} (hInv : SetInv s)
    (he : e ∈ s) (hc : e.contains i = true) (hiM : i < USIZE_MAX) :
    ∃ s3, FreeRanges.set_used s i = .ok (true, s3) ∧ SetInv s3 ∧
      ∀ a, a ∈ s3 ↔ ((a ∈ s ∧ a ≠ e) ∨ (e.min < i ∧ a = ⟨e.min, i - 1⟩) ∨
        (i < e.max ∧ a = ⟨i + 1, e.max⟩)) := by
  have hwe := hInv.wf e he
  have hwe1 := hwe.1
  have hwe2 := hwe.2
  have hci := contains_iff.mp hc
  have hget := btGet_point_some hInv he hc
  have hs1 := hInv.btRemove e
  have hm1 := btRemove_mem_iff hInv he
  rcases Nat.eq_zero_or_pos i with rfl | hipos
  · -- splitting at index zero takes the pop-front special case
    have hemin : e.min = 0 := by omega
    have heminM : ¬ e.min = USIZE_MAX := by omega
    have hsplit : e.split 0 = .ok (EMPTY_RANGE, ⟨e.min + 1, e.max⟩) := by
      unfold Range.split Range.pop_front checkedAdd1
      rw [if_pos rfl, if_neg heminM]
    rw [set_used_reduce hget hsplit]
    have hLempty : EMPTY_RANGE.empty = true := by decide
    by_cases hR : 0 < e.max
    · have hRempty : (Range.mk (e.min + 1) e.max).empty = false := by
        simp only [Range.empty, decide_eq_false_iff_not]
        omega
      rw [if_neg (by rw [hRempty]; exact Bool.false_ne_true), if_pos hLempty]
      have hcompR : ∀ r ∈ btRemove s e,
          Rgap (Range.mk (e.min + 1) e.max) r ∨ Rgap r (Range.mk (e.min + 1) e.max) := by
        intro r hr
        rcases (hm1 r).mp hr with ⟨hrs, hrne⟩
        have hwr1 := (hInv.wf r hrs).1
        rcases hInv.total hrs he hrne with hg | hg
        · right
          simp only [Rgap] at hg ⊢
          omega
        · left
          simp only [Rgap] at hg ⊢
          omega
      rcases insert_combined hs1 (wfRange_mk (by omega) hwe2) hcompR with ⟨hinv2, hmem2⟩
      refine ⟨_, rfl, hinv2, ?_⟩
      intro a
      rw [hmem2 a, hm1 a]
      constructor
      · rintro (rfl | h2)
        · exact Or.inr (Or.inr ⟨hR, by rw [hemin]⟩)
        · exact Or.inl h2
      · rintro (h2 | ⟨h3, _⟩ | ⟨_, rfl⟩)
        · exact Or.inr h2
        · omega
        · rw [hemin]
          exact Or.inl rfl
    · have hRempty : (Range.mk (e.min + 1) e.max).empty = true := by
        simp only [Range.empty, decide_eq_true_eq]
        omega
      rw [if_pos hRempty, if_pos hLempty]
      refine ⟨_, rfl, hs1, ?_⟩
      intro a
      rw [hm1 a]
      constructor
      · intro h2
        exact Or.inl h2
      · rintro (h2 | ⟨h3, _⟩ | ⟨h3, _⟩)
        · exact h2
        · omega
        · omega
  · -- splitting at a positive index
    have h0 : ¬ i = 0 := by omega
    have hM : ¬ i = USIZE_MAX := by omega
    have hsplit : e.split i = .ok (⟨e.min, i - 1⟩, ⟨i + 1, e.max⟩) := by
      unfold Range.split checkedSub1 checkedAdd1
      rw [if_neg h0, if_neg h0, if_neg hM]
    rw [set_used_reduce hget hsplit]
    have hcompL : e.min < i → ∀ r ∈ btRemove s e,
        Rgap (Range.mk e.min (i - 1)) r ∨ Rgap r (Range.mk e.min (i - 1)) := by
      intro hL r hr
      rcases (hm1 r).mp hr with ⟨hrs, hrne⟩
      have hwr1 := (hInv.wf r hrs).1
      rcases hInv.total hrs he hrne with hg | hg
      · right
        simp only [Rgap] at hg ⊢
        omega
      · left
        simp only [Rgap] at hg ⊢
        omega
    by_cases hL : e.min < i
    · have hLempty : (Range.mk e.min (i - 1)).empty = false := by
        simp only [Range.empty, decide_eq_false_iff_not]
        omega
      rcases insert_combined hs1 (wfRange_mk (by omega) (by omega)) (hcompL hL)
        with ⟨hinv2, hmem2⟩
      by_cases hR : i < e.max
      · have hRempty : (Range.mk (i + 1) e.max).empty = false := by
          simp only [Range.empty, decide_eq_false_iff_not]
          omega
        rw [if_neg (by rw [hRempty]; exact Bool.false_ne_true),
          if_neg (by rw [hLempty]; exact Bool.false_ne_true)]
        have hcompR : ∀ r ∈ btInsert (btRemove s e) (Range.mk e.min (i - 1)),
            Rgap (Range.mk (i + 1) e.max) r ∨ Rgap r (Range.mk (i + 1) e.max) := by
          intro r hr
          rcases (hmem2 r).mp hr with rfl | hr2
          · right
            simp only [Rgap]
            omega
          · rcases (hm1 r).mp hr2 with ⟨hrs, hrne⟩
            have hwr1 := (hInv.wf r hrs).1
            rcases hInv.total hrs he hrne with hg | hg
            · right
              simp only [Rgap] at hg ⊢
              omega
            · left
              simp only [Rgap] at hg ⊢
              omega
        rcases insert_combined hinv2 (wfRange_mk (by omega) hwe2) hcompR
          with ⟨hinv3, hmem3⟩
        refine ⟨_, rfl, hinv3, ?_⟩
        intro a
        rw [hmem3 a, hmem2 a, hm1 a]
        constructor
        · rintro (rfl | rfl | h2)
          · exact Or.inr (Or.inr ⟨hR, rfl⟩)
          · exact Or.inr (Or.inl ⟨hL, rfl⟩)
          · exact Or.inl h2
        · rintro (h2 | ⟨_, rfl⟩ | ⟨_, rfl⟩)
          · exact Or.inr (Or.inr h2)
          · exact Or.inr (Or.inl rfl)
          · exact Or.inl rfl
      · have hRempty : (Range.mk (i + 1) e.max).empty = true := by
          simp only [Range.empty, decide_eq_true_eq]
          omega
        rw [if_pos hRempty, if_neg (by rw [hLempty]; exact Bool.false_ne_true)]
        refine ⟨_, rfl, hinv2, ?_⟩
        intro a
        rw [hmem2 a, hm1 a]
        constructor
        · rintro (rfl | h2)
          · exact Or.inr (Or.inl ⟨hL, rfl⟩)
          · exact Or.inl h2
        · rintro (h2 | ⟨_, rfl⟩ | ⟨h3, _⟩)
          · exact Or.inr h2
          · exact Or.inl rfl
          · omega
    · have hLempty : (Range.mk e.min (i - 1)).empty = true := by
        simp only [Range.empty, decide_eq_true_eq]
        omega
      by_cases hR : i < e.max
      · have hRempty : (Range.mk (i + 1) e.max).empty = false := by
          simp only [Range.empty, decide_eq_false_iff_not]
          omega
        rw [if_neg (by rw [hRempty]; exact Bool.false_ne_true), if_pos hLempty]
        have hcompR : ∀ r ∈ btRemove s e,
            Rgap (Range.mk (i + 1) e.max) r ∨ Rgap r (Range.mk (i + 1) e.max) := by
          intro r hr
          rcases (hm1 r).mp hr with ⟨hrs, hrne⟩
          have hwr1 := (hInv.wf r hrs).1
          rcases hInv.total hrs he hrne with hg | hg
          · right
            simp only [Rgap] at hg ⊢
            omega
          · left
            simp only [Rgap] at hg ⊢
            omega
        rcases insert_combined hs1 (wfRange_mk (by omega) hwe2) hcompR
          with ⟨hinv2, hmem2⟩
        refine ⟨_, rfl, hinv2, ?_⟩
        intro a
        rw [hmem2 a, hm1 a]
        constructor
        · rintro (rfl | h2)
          · exact Or.inr (Or.inr ⟨hR, rfl⟩)
          · exact Or.inl h2
        · rintro (h2 | ⟨h3, _⟩ | ⟨_, rfl⟩)
          · exact Or.inr h2
          · omega
          · exact Or.inl rfl
      · have hRempty : (Range.mk (i + 1) e.max).empty = true := by
          simp only [Range.empty, decide_eq_true_eq]
          omega
        rw [if_pos hRempty, if_pos hLempty]
        refine ⟨_, rfl, hs1, ?_⟩
        intro a
        rw [hm1 a]
        constructor
        · intro h2
          exact Or.inl h2
        · rintro (h2 | ⟨h3, _⟩ | ⟨h3, _⟩)
          · exact h2
          · omega
          · omega

/-! Facts about the last stored interval. -/

theorem getLast_isSome : ∀ (x : Range) (t : List Range), ∃ e, (x :: t).getLast? = some e := by
  intro x t
  induction t generalizing x with
  | nil => exact ⟨x, List.getLast?_singleton x⟩
  | cons y u ih =>
    rcases ih y with ⟨e, he⟩
    exact ⟨e, by rw [List.getLast?_cons_cons]; exact he⟩

theorem getLast_spec : ∀ {s : List Range}, SetInv s → ∀ {e : Range},
    s.getLast? = some e → e ∈ s ∧ ∀ r ∈ s, r = e ∨ Rgap r e := by
  intro s
  induction s with
  | nil =>
    intro _ e h
    cases h
  | cons x t ih =>
    intro hInv e h
    cases t with
    | nil =>
      rw [List.getLast?_singleton] at h
      injection h with hh
      subst hh
      refine ⟨List.mem_cons_self _ _, ?_⟩
      intro r hr
      rcases List.mem_cons.mp hr with rfl | hrt
      · exact Or.inl rfl
      · cases hrt
    | cons y u =>
      rw [List.getLast?_cons_cons] at h
      rcases ih hInv.tail h with ⟨hmem, hall⟩
      refine ⟨List.mem_cons_of_mem x hmem, ?_⟩
      intro r hr
      rcases List.mem_cons.mp hr with rfl | hrt
      · exact Or.inr (hInv.head_gap e hmem)
      · exact hall r hrt

/-! Reductions of set_free and the merge routine used for the boundary
claims. -/

theorem set_free_ok_of_do_ok {s : List Range} {i : Nat} {l2 : List Range}
    (hbc : btContains s (Range.id i) = false)
    (hdo : FreeRanges.do_set_free s (Range.id i) = .ok l2) :
    FreeRanges.set_free s i = .ok (true, l2) := by
  unfold FreeRanges.set_free
  rw [if_neg (show ¬ btContains s (Range.id i) = true from by
    rw [hbc]; exact Bool.false_ne_true), hdo]

theorem do_set_free_min0_reduce {s : List Range} {r : Range} (h0 : r.min = 0)
    (hM : ¬ r.max = USIZE_MAX) :
    FreeRanges.do_set_free s r =
      match btGet s r, btGet s ⟨r.min, r.max + 1⟩ with
      | some fr, some br =>
        .ok (btInsert (btRemove (btRemove s fr) br) ((fr.merge r).merge br))
      | some fr, none => .ok (btInsert (btRemove s fr) (fr.merge r))
      | none, some br => .ok (btInsert (btRemove s br) (br.merge r))
      | none, none => .ok (btInsert s r) := by
  simp only [FreeRanges.do_set_free, Range.push_back, checkedAdd1, if_neg hM,
    if_neg (show ¬ 0 < r.min from by omega)]

theorem do_set_free_maxM {s : List Range} {r : Range} (hM : r.max = USIZE_MAX) :
    FreeRanges.do_set_free s r = .error .overflow := by
  unfold FreeRanges.do_set_free
  have hpb : r.push_back = .error .overflow := by
    unfold Range.push_back checkedAdd1
    rw [if_pos hM]
  by_cases h0 : 0 < r.min
  · have hpf : r.push_front = .ok ⟨r.min - 1, r.max⟩ := by
      unfold Range.push_front checkedSub1
      rw [if_neg (show ¬ r.min = 0 from by omega)]
    rw [if_pos h0, hpf, hpb]
  · rw [if_neg h0, hpb]

/-! Claim theorems. -/

/-- C8: under the invariant, is_free x is true exactly when some stored
interval contains x, and the point lookup retrieves the unique stored
interval containing x when one exists. -/
theorem is_free_iff_member_contains (s : List Range) (x : Nat) (hInv : SetInv s) :
    (FreeRanges.is_free s x = true ↔ ∃ r ∈ s, r.min ≤ x ∧ x ≤ r.max) ∧
    (∀ e, btGet s (Range.id x) = some e →
      e ∈ s ∧ e.min ≤ x ∧ x ≤ e.max ∧ ∀ r ∈ s, r.min ≤ x → x ≤ r.max → r = e) := by
  constructor
  · rw [is_free_iff hInv]
    unfold freeMem
    constructor
    · rintro ⟨r, hr, hc⟩
      exact ⟨r, hr, contains_iff.mp hc⟩
    · rintro ⟨r, hr, h1, h2⟩
      exact ⟨r, hr, contains_iff.mpr ⟨h1, h2⟩⟩
  · intro e hg
    rcases btGet_some_spec hg with ⟨hm, hq⟩
    have hc := (rangeCmp_point_eq_iff (hInv.wf e hm).1 x).mp hq
    have hci := contains_iff.mp hc
    refine ⟨hm, hci.1, hci.2, ?_⟩
    intro r hr h1 h2
    exact hInv.uniq_contains hr hm (contains_iff.mpr ⟨h1, h2⟩) hc

theorem is_free_iff_member_contains_witness :
    SetInv [⟨2, 4⟩] ∧
      ((FreeRanges.is_free [⟨2, 4⟩] 3 = true ↔ ∃ r ∈ [(⟨2, 4⟩ : Range)], r.min ≤ 3 ∧ 3 ≤ r.max) ∧
      (∀ e, btGet [⟨2, 4⟩] (Range.id 3) = some e →
        e ∈ [(⟨2, 4⟩ : Range)] ∧ e.min ≤ 3 ∧ 3 ≤ e.max ∧
          ∀ r ∈ [(⟨2, 4⟩ : Range)], r.min ≤ 3 → 3 ≤ r.max → r = e)) :=
  ⟨by decide, is_free_iff_member_contains [⟨2, 4⟩] 3 (by decide)⟩

/-- C9: first returns the minimum free index across all stored intervals and
last the maximum; each is none exactly when the set stores no intervals. -/
theorem first_last_extremal (s : List Range) (hInv : SetInv s) :
    (FreeRanges.first s = none ↔ s = []) ∧
    (FreeRanges.last s = none ↔ s = []) ∧
    (∀ m, FreeRanges.first s = some m → freeMem s m ∧ ∀ j, freeMem s j → m ≤ j) ∧
    (∀ m, FreeRanges.last s = some m → freeMem s m ∧ ∀ j, freeMem s j → j ≤ m) := by
  refine ⟨?_, ?_, ?_, ?_⟩
  · cases s with
    | nil => simp [FreeRanges.first]
    | cons x t => simp [FreeRanges.first]
  · cases s with
    | nil => simp [FreeRanges.last]
    | cons x t =>
      rcases getLast_isSome x t with ⟨e, he⟩
      simp [FreeRanges.last, he]
  · intro m hm
    cases s with
    | nil => cases hm
    | cons x t =>
      simp only [FreeRanges.first, List.head?_cons, Option.map_some', Option.some.injEq] at hm
      have hwx := hInv.wf x (List.mem_cons_self x t)
      constructor
      · exact ⟨x, List.mem_cons_self x t,
          contains_iff.mpr ⟨by omega, by rw [← hm]; exact hwx.1⟩⟩
      · rintro j ⟨r, hr, hcr⟩
        rw [contains_iff] at hcr
        rcases List.mem_cons.mp hr with rfl | hrt
        · omega
        · have hg := hInv.head_gap r hrt
          have hwx1 := hwx.1
          unfold Rgap at hg
          omega
  · intro m hm
    cases s with
    | nil => cases hm
    | cons x t =>
      rcases getLast_isSome x t with ⟨e, he⟩
      have hm2 : e.max = m := by
        simp only [FreeRanges.last, he, Option.map_some', Option.some.injEq] at hm
        exact hm
      rcases getLast_spec hInv he with ⟨hmem, hall⟩
      have hwe := hInv.wf e hmem
      have hwe1 := hwe.1
      constructor
      · exact ⟨e, hmem, contains_iff.mpr ⟨by omega, by omega⟩⟩
      · rintro j ⟨r, hr, hcr⟩
        rw [contains_iff] at hcr
        rcases hall r hr with rfl | hg
        · omega
        · unfold Rgap at hg
          omega

theorem first_last_extremal_witness :
    SetInv [⟨2, 4⟩] ∧
      ((FreeRanges.first [⟨2, 4⟩] = none ↔ [(⟨2, 4⟩ : Range)] = []) ∧
      (FreeRanges.last [⟨2, 4⟩] = none ↔ [(⟨2, 4⟩ : Range)] = []) ∧
      (∀ m, FreeRanges.first [⟨2, 4⟩] = some m →
        freeMem [⟨2, 4⟩] m ∧ ∀ j, freeMem [⟨2, 4⟩] j → m ≤ j) ∧
      (∀ m, FreeRanges.last [⟨2, 4⟩] = some m →
        freeMem [⟨2, 4⟩] m ∧ ∀ j, freeMem [⟨2, 4⟩] j → j ≤ m)) :=
  ⟨by decide, first_last_extremal [⟨2, 4⟩] (by decide)⟩

/-- C10: under the invariant, a successful set_used at index i changes the
free status of no index other than i. -/
theorem set_used_frame (s : List Range) (i : Nat) (s2 : List Range) (j : Nat)
    (hInv : SetInv s) (h : FreeRanges.set_used s i = .ok (true, s2)) (hj : j ≠ i) :
    FreeRanges.is_free s2 j = FreeRanges.is_free s j := by
  rcases hget : btGet s (Range.id i) with _ | e
  · simp [FreeRanges.set_used, hget] at h
  · rcases btGet_some_spec hget with ⟨hm, hq⟩
    have hwe := hInv.wf e hm
    have hc := (rangeCmp_point_eq_iff hwe.1 i).mp hq
    have hci := contains_iff.mp hc
    have hiM : i < USIZE_MAX := by
      rcases Nat.lt_or_ge i USIZE_MAX with hlt | hge
      · exact hlt
      · exfalso
        have hwe2 := hwe.2
        have hieq : i = USIZE_MAX := by omega
        have h0 : ¬ i = 0 := by
          intro hh
          rw [hh] at hieq
          exact absurd hieq.symm (by decide)
        have hsplit : e.split i = .error .overflow := by
          unfold Range.split checkedSub1 checkedAdd1
          rw [if_neg h0, if_neg h0, if_pos hieq]
        simp [FreeRanges.set_used, hget, hsplit] at h
    rcases set_used_found hInv hm hc hiM with ⟨s3, heq, hinv3, hmem3⟩
    have hs23 : s3 = s2 := by
      have h2 := heq.symm.trans h
      simp only [Except.ok.injEq, Prod.mk.injEq, true_and] at h2
      exact h2
    subst hs23
    have hiff : freeMem s3 j ↔ freeMem s j := by
      unfold freeMem
      constructor
      · rintro ⟨r, hr, hcr⟩
        rcases (hmem3 r).mp hr with ⟨hrs, _⟩ | ⟨hL, rfl⟩ | ⟨hR, rfl⟩
        · exact ⟨r, hrs, hcr⟩
        · have hcr2 : e.min ≤ j ∧ j ≤ i - 1 := contains_iff.mp hcr
          exact ⟨e, hm, contains_iff.mpr ⟨by omega, by omega⟩⟩
        · have hcr2 : i + 1 ≤ j ∧ j ≤ e.max := contains_iff.mp hcr
          exact ⟨e, hm, contains_iff.mpr ⟨by omega, by omega⟩⟩
      · rintro ⟨r, hr, hcr⟩
        by_cases hre : r = e
        · subst hre
          have hcr2 := contains_iff.mp hcr
          rcases Nat.lt_or_ge j i with hji | hji
          · refine ⟨⟨r.min, i - 1⟩, (hmem3 _).mpr (Or.inr (Or.inl ⟨by omega, rfl⟩)), ?_⟩
            exact contains_iff.mpr ⟨show r.min ≤ j from by omega, show j ≤ i - 1 from by omega⟩
          · have hji2 : i + 1 ≤ j := by omega
            refine ⟨⟨i + 1, r.max⟩, (hmem3 _).mpr (Or.inr (Or.inr ⟨by omega, rfl⟩)), ?_⟩
            exact contains_iff.mpr ⟨show i + 1 ≤ j from by omega, show j ≤ r.max from by omega⟩
        · exact ⟨r, (hmem3 r).mpr (Or.inl ⟨hr, hre⟩), hcr⟩
    have hb1 := is_free_iff hinv3 (x := j)
    have hb2 := is_free_iff hInv (x := j)
    cases h3 : FreeRanges.is_free s3 j <;> cases h4 : FreeRanges.is_free s j
    · rfl
    · exact absurd (hb1.mpr (hiff.mpr (hb2.mp h4))) (by rw [h3]; exact Bool.false_ne_true)
    · exact absurd (hb2.mpr (hiff.mp (hb1.mp h3))) (by rw [h4]; exact Bool.false_ne_true)
    · rfl

theorem set_used_frame_witness :
    SetInv [⟨2, 4⟩] ∧
      FreeRanges.set_used [⟨2, 4⟩] 3 = .ok (true, [⟨2, 2⟩, ⟨4, 4⟩]) ∧
      (2 ≠ 3) ∧
      FreeRanges.is_free [⟨2, 2⟩, ⟨4, 4⟩] 2 = FreeRanges.is_free [⟨2, 4⟩] 2 :=
  ⟨by decide, by rfl, by decide,
    set_used_frame [⟨2, 4⟩] 3 [⟨2, 2⟩, ⟨4, 4⟩] 2 (by decide) (by rfl) (by decide)⟩

/-- C4 counterexample: at the top index, with the stored interval being
exactly that single index, set_used overflows computing index + 1 instead of
returning true with the interval removed. -/
theorem set_used_at_usize_max_overflows :
    SetInv [⟨USIZE_MAX, USIZE_MAX⟩] ∧
      (⟨USIZE_MAX, USIZE_MAX⟩ : Range).contains USIZE_MAX = true ∧
      FreeRanges.set_used [⟨USIZE_MAX, USIZE_MAX⟩] USIZE_MAX = .error .overflow :=
  ⟨by decide, by decide, by rfl⟩

/-- C4 (amended): for every index i, set_used returns false and leaves the set
unchanged when no stored interval contains i; when a stored interval contains
i and i is below usize MAX, it removes that interval, reinserts the nonempty
parts strictly below and strictly above i, returns true, and afterwards i is
not free (at i equal to usize MAX the code overflows instead). -/
theorem set_used_spec_below_max (s : List Range) (i : Nat) (hInv : SetInv s) :
    ((∀ e ∈ s, e.contains i = false) → FreeRanges.set_used s i = .ok (false, s)) ∧
    (∀ e ∈ s, e.contains i = true → i < USIZE_MAX →
      ∃ s2, FreeRanges.set_used s i = .ok (true, s2) ∧
        FreeRanges.is_free s2 i = false ∧
        ∀ a, a ∈ s2 ↔ ((a ∈ s ∧ a ≠ e) ∨ (e.min < i ∧ a = ⟨e.min, i - 1⟩) ∨
          (i < e.max ∧ a = ⟨i + 1, e.max⟩))) := by
  constructor
  · intro h
    exact set_used_notfound hInv h
  · intro e he hc hiM
    have hci := contains_iff.mp hc
    rcases set_used_found hInv he hc hiM with ⟨s3, heq, hinv3, hmem3⟩
    refine ⟨s3, heq, ?_, hmem3⟩
    rw [is_free_false_iff hinv3]
    intro a ha
    rcases (hmem3 a).mp ha with ⟨has, hane⟩ | ⟨hL, rfl⟩ | ⟨hR, rfl⟩
    · by_contra hcc
      rw [Bool.not_eq_false] at hcc
      exact hane (hInv.uniq_contains has he hcc hc)
    · rw [contains_false_iff]
      show ¬ (e.min ≤ i ∧ i ≤ i - 1)
      omega
    · rw [contains_false_iff]
      show ¬ (i + 1 ≤ i ∧ i ≤ e.max)
      omega

theorem set_used_spec_below_max_witness :
    SetInv [⟨2, 4⟩] ∧
      (((∀ e ∈ [(⟨2, 4⟩ : Range)], e.contains 3 = false) →
        FreeRanges.set_used [⟨2, 4⟩] 3 = .ok (false, [⟨2, 4⟩])) ∧
      (∀ e ∈ [(⟨2, 4⟩ : Range)], e.contains 3 = true → 3 < USIZE_MAX →
        ∃ s2, FreeRanges.set_used [⟨2, 4⟩] 3 = .ok (true, s2) ∧
          FreeRanges.is_free s2 3 = false ∧
          ∀ a, a ∈ s2 ↔ ((a ∈ [(⟨2, 4⟩ : Range)] ∧ a ≠ e) ∨
            (e.min < 3 ∧ a = ⟨e.min, 3 - 1⟩) ∨ (3 < e.max ∧ a = ⟨3 + 1, e.max⟩)))) :=
  ⟨by decide, set_used_spec_below_max [⟨2, 4⟩] 3 (by decide)⟩

/-- C6 counterexample: on the empty set, where the top index is not free, the
claim asserts set_free returns true; the code instead overflows computing
index + 1 for the back-neighbor probe. -/
theorem set_free_at_usize_max_overflows :
    SetInv [] ∧ FreeRanges.is_free [] USIZE_MAX = false ∧
      FreeRanges.set_free [] USIZE_MAX = .error .overflow :=
  ⟨by decide, by rfl, by rfl⟩

/-- C6 (amended): set_free returns false and leaves the set unchanged when the
index is already free; for an index below usize MAX that is not free it
returns true and afterwards the index is free (at index usize MAX the code
overflows instead of returning true). -/
theorem set_free_spec (s : List Range) (i : Nat) (hInv : SetInv s) :
    (FreeRanges.is_free s i = true → FreeRanges.set_free s i = .ok (false, s)) ∧
    (i < USIZE_MAX → FreeRanges.is_free s i = false →
      ∃ s2, FreeRanges.set_free s i = .ok (true, s2) ∧
        FreeRanges.is_free s2 i = true) := by
  constructor
  · intro h
    unfold FreeRanges.set_free
    rw [if_pos (show btContains s (Range.id i) = true from h)]
  · intro hiM hfree
    have hni := (is_free_false_iff hInv).mp hfree
    rcases do_set_free_point hInv hiM hni with
      ⟨s2, fo, bo, heq, hinv2, hfo, hbo, hfon, hbon, hcmin, hcmax, hmem⟩
    refine ⟨s2, ?_, ?_⟩
    · exact set_free_ok_of_do_ok (show btContains s (Range.id i) = false from hfree) heq
    · rw [is_free_iff hinv2]
      exact ⟨combineWith fo bo i, (hmem _).mpr (Or.inl rfl),
        contains_iff.mpr ⟨hcmin, hcmax⟩⟩

theorem set_free_spec_witness :
    SetInv [⟨2, 4⟩] ∧
      ((FreeRanges.is_free [⟨2, 4⟩] 6 = true →
        FreeRanges.set_free [⟨2, 4⟩] 6 = .ok (false, [⟨2, 4⟩])) ∧
      (6 < USIZE_MAX → FreeRanges.is_free [⟨2, 4⟩] 6 = false →
        ∃ s2, FreeRanges.set_free [⟨2, 4⟩] 6 = .ok (true, s2) ∧
          FreeRanges.is_free s2 6 = true)) :=
  ⟨by decide, set_free_spec [⟨2, 4⟩] 6 (by decide)⟩

/-- C5 counterexample: on the state with the single stored interval from 2 to
3, the top index is not free and the invariants hold, yet set_free at the top
index overflows, so the set_free-then-set_used round trip cannot restore the
set as the claim asserts for every non-free index. -/
theorem roundtrip_fails_at_usize_max :
    SetInv [⟨2, 3⟩] ∧ FreeRanges.is_free [⟨2, 3⟩] USIZE_MAX = false ∧
      FreeRanges.set_free [⟨2, 3⟩] USIZE_MAX = .error .overflow :=
  ⟨by decide, by rfl, by rfl⟩

/-- C5 (amended): for an index below usize MAX that is not free in a state
satisfying the invariants, set_free then set_used at that index restores
exactly the original stored interval sequence (at index usize MAX set_free
overflows instead). -/
theorem free_then_use_roundtrip (s : List Range) (i : Nat) (hInv : SetInv s)
    (hiM : i < USIZE_MAX) (hfree : FreeRanges.is_free s i = false) :
    ∃ s1, FreeRanges.set_free s i = .ok (true, s1) ∧
      FreeRanges.set_used s1 i = .ok (true, s) := by
  have hni := (is_free_false_iff hInv).mp hfree
  rcases do_set_free_point hInv hiM hni with
    ⟨s1, fo, bo, heq, hinv1, hfo, hbo, hfon, hbon, hcmin, hcmax, hmem⟩
  have hcmem : combineWith fo bo i ∈ s1 := (hmem _).mpr (Or.inl rfl)
  have hccont : (combineWith fo bo i).contains i = true := contains_iff.mpr ⟨hcmin, hcmax⟩
  rcases set_used_found hinv1 hcmem hccont hiM with ⟨s3, heq2, hinv3, hmem3⟩
  have hsame : ∀ a, a ∈ s3 ↔ a ∈ s := by
    intro a
    rw [hmem3 a]
    constructor
    · rintro (⟨ha1, hane⟩ | ⟨hL, rfl⟩ | ⟨hR, rfl⟩)
      · rcases (hmem a).mp ha1 with rfl | ⟨has, _, _⟩
        · exact absurd rfl hane
        · exact has
      · rcases fo with _ | f
        · exfalso
          have hmineq : (combineWith none bo i).min = i := rfl
          omega
        · rcases hfo f rfl with ⟨hfs, hipos, hfmin, hfmax⟩
          have hmineq : (combineWith (some f) bo i).min = f.min := rfl
          rw [hmineq]
          have hfr : (⟨f.min, i - 1⟩ : Range) = f := by rw [← hfmax]
          rw [hfr]
          exact hfs
      · rcases bo with _ | b
        · exfalso
          have hmaxeq : (combineWith fo none i).max = i := by
            rcases fo with _ | f <;> rfl
          omega
        · rcases hbo b rfl with ⟨hbs, hbmin, hbmax⟩
          have hmaxeq : (combineWith fo (some b) i).max = b.max := by
            rcases fo with _ | f <;> rfl
          rw [hmaxeq]
          have hbr : (⟨i + 1, b.max⟩ : Range) = b := by rw [← hbmin]
          rw [hbr]
          exact hbs
    · intro has
      by_cases haf : fo = some a
      · rcases hfo a haf with ⟨_, hipos, hfmin, hfmax⟩
        refine Or.inr (Or.inl ⟨?_, ?_⟩)
        · rw [haf]
          show a.min < i
          omega
        · rw [haf]
          show a = ⟨a.min, i - 1⟩
          rw [← hfmax]
      · by_cases hab : bo = some a
        · rcases hbo a hab with ⟨_, hbmin, hbmax⟩
          refine Or.inr (Or.inr ⟨?_, ?_⟩)
          · rw [hab]
            show i < a.max
            omega
          · rw [hab]
            show a = ⟨i + 1, a.max⟩
            rw [← hbmin]
        · refine Or.inl ⟨(hmem a).mpr (Or.inr ⟨has, haf, hab⟩), ?_⟩
          intro hh
          have hthis := hni a has
          rw [hh, hccont] at hthis
          cases hthis
  have hs3eq : s3 = s := sorted_eq_of_mem_iff s3 s hinv3.wf hinv3.pw hInv.pw hsame
  refine ⟨s1, ?_, ?_⟩
  · exact set_free_ok_of_do_ok (show btContains s (Range.id i) = false from hfree) heq
  · rw [heq2, hs3eq]

theorem free_then_use_roundtrip_witness :
    SetInv [⟨2, 4⟩] ∧ 6 < USIZE_MAX ∧ FreeRanges.is_free [⟨2, 4⟩] 6 = false ∧
      ∃ s1, FreeRanges.set_free [⟨2, 4⟩] 6 = .ok (true, s1) ∧
        FreeRanges.set_used s1 6 = .ok (true, [⟨2, 4⟩]) :=
  ⟨by decide, by decide, by rfl,
    free_then_use_roundtrip [⟨2, 4⟩] 6 (by decide) (by decide) (by rfl)⟩

/-- C7: freeing or using the minimum index never underflows: set_free at zero
and set_range_free on a range starting at zero skip the front-neighbor probe,
set_used at zero takes the split special case, and set_last_used on a last
interval ending at zero removes it without shrinking. -/
theorem min_index_no_underflow (s : List Range) (r l : Range) :
    (FreeRanges.set_free s 0 ≠ .error .underflow) ∧
    (r.min = 0 → FreeRanges.set_range_free s r ≠ .error .underflow) ∧
    (FreeRanges.set_used s 0 ≠ .error .underflow) ∧
    (s.getLast? = some l → l.max = 0 →
      FreeRanges.set_last_used s = .ok (some 0, btRemove s l)) := by
  refine ⟨?_, ?_, ?_, ?_⟩
  · by_cases hbc : btContains s (Range.id 0) = true
    · unfold FreeRanges.set_free
      rw [if_pos hbc]
      intro h
      cases h
    · simp only [Bool.not_eq_true] at hbc
      have hok : ∃ l2, FreeRanges.do_set_free s (Range.id 0) = .ok l2 := by
        have hred := do_set_free_point_reduce (s := s) (i := 0) (by decide)
        rw [if_neg (show ¬ 0 < 0 from by omega)] at hred
        rcases h1 : btGet s (⟨0, 0⟩ : Range) with _ | f <;>
          rcases h2 : btGet s (⟨0, 0 + 1⟩ : Range) with _ | b <;>
          rw [h1, h2] at hred <;> exact ⟨_, by rw [hred]⟩
      rcases hok with ⟨l2, hdo⟩
      rw [set_free_ok_of_do_ok hbc hdo]
      intro h
      cases h
  · intro h0 h
    by_cases hM : r.max = USIZE_MAX
    · have hdo := do_set_free_maxM (s := s) hM
      rcases h1 : btGet s (Range.id r.min) with _ | fc <;>
        rcases h2 : btGet s (Range.id r.max) with _ | bc <;>
        simp only [FreeRanges.set_range_free, h1, h2, hdo] at h <;>
        first
          | exact Except.noConfusion h
          | (injection h with h3; cases h3)
          | (split_ifs at h <;>
              first
                | exact Except.noConfusion h
                | (injection h with h3; cases h3))
    · have hred := do_set_free_min0_reduce (s := s) h0 hM
      have hok : ∃ l2, FreeRanges.do_set_free s r = .ok l2 := by
        rcases h3 : btGet s r with _ | f <;>
          rcases h4 : btGet s (⟨r.min, r.max + 1⟩ : Range) with _ | b <;>
          rw [h3, h4] at hred <;> exact ⟨_, by rw [hred]⟩
      rcases hok with ⟨l2, hdo⟩
      rcases h1 : btGet s (Range.id r.min) with _ | fc <;>
        rcases h2 : btGet s (Range.id r.max) with _ | bc <;>
        simp only [FreeRanges.set_range_free, h1, h2, hdo] at h <;>
        first
          | exact Except.noConfusion h
          | (injection h with h3; cases h3)
          | (split_ifs at h <;>
              first
                | exact Except.noConfusion h
                | (injection h with h3; cases h3))
  · intro h
    rcases h1 : btGet s (Range.id 0) with _ | e
    · simp only [FreeRanges.set_used, h1] at h
      exact Except.noConfusion h
    · by_cases hM : e.min = USIZE_MAX
      · have hsp : e.split 0 = .error .overflow := by
          unfold Range.split Range.pop_front checkedAdd1
          rw [if_pos rfl, if_pos hM]
        simp only [FreeRanges.set_used, h1, hsp] at h
        injection h with h3
        cases h3
      · have hsp : e.split 0 = .ok (EMPTY_RANGE, ⟨e.min + 1, e.max⟩) := by
          unfold Range.split Range.pop_front checkedAdd1
          rw [if_pos rfl, if_neg hM]
        simp only [FreeRanges.set_used, h1, hsp] at h
        exact Except.noConfusion h
  · intro hlast hmax
    simp only [FreeRanges.set_last_used, hlast, hmax]
    rw [if_neg (show ¬ (0 : Nat) ≠ 0 from by omega)]

theorem min_index_no_underflow_witness :
    (FreeRanges.set_free [⟨0, 0⟩] 0 ≠ .error .underflow) ∧
    (FreeRanges.set_range_free [⟨0, 0⟩] ⟨0, 5⟩ ≠ .error .underflow) ∧
    (FreeRanges.set_used [⟨0, 0⟩] 0 ≠ .error .underflow) ∧
    FreeRanges.set_last_used [⟨0, 0⟩] = .ok (some 0, btRemove [⟨0, 0⟩] ⟨0, 0⟩) := by
  have h := min_index_no_underflow [⟨0, 0⟩] ⟨0, 5⟩ ⟨0, 0⟩
  exact ⟨h.1, h.2.1 rfl, h.2.2.1, h.2.2.2 (by decide) rfl⟩

/-- C1 (code bug): the sequence new, set_range_free 4..5, set_range_free
10..12, set_range_free 3..9 of public operations on well-formed ranges
reaches the state with stored intervals 3..9 and 10..12, which are adjacent
(9 + 1 = 10), violating the non-adjacency invariant: the merge routine only
consulted the extended probes, both of which found 4..5, and never merged
with 10..12. -/
theorem invariant_violated_by_wide_set_range_free :
    FreeRanges.set_range_free FreeRanges.new ⟨4, 5⟩ = .ok (true, [⟨4, 5⟩]) ∧
    FreeRanges.set_range_free [⟨4, 5⟩] ⟨10, 12⟩ = .ok (true, [⟨4, 5⟩, ⟨10, 12⟩]) ∧
    FreeRanges.set_range_free [⟨4, 5⟩, ⟨10, 12⟩] ⟨3, 9⟩
      = .ok (true, [⟨3, 9⟩, ⟨10, 12⟩]) ∧
    ¬ SetInv [⟨3, 9⟩, ⟨10, 12⟩] :=
  ⟨by rfl, by rfl, by rfl, by decide⟩

/-- C2 (code bug): on the invariant-satisfying state with stored intervals
4..5 and 7..8, set_range_free 3..9 returns true but afterwards indices 3 and
4 are not free: both neighbor probes found 4..5, it was removed, and the
merged interval 3..9 was rejected by the duplicate-rejecting insert because
it compares equal to the untouched interior interval 7..8. -/
theorem set_range_free_drops_interior_range :
    SetInv [⟨4, 5⟩, ⟨7, 8⟩] ∧
    FreeRanges.set_range_free [⟨4, 5⟩, ⟨7, 8⟩] ⟨3, 9⟩ = .ok (true, [⟨7, 8⟩]) ∧
    FreeRanges.is_free [⟨7, 8⟩] 3 = false ∧
    FreeRanges.is_free [⟨7, 8⟩] 4 = false :=
  ⟨by decide, by rfl, by rfl, by rfl⟩

/-- C3 (code bug): freeing or using the maximum representable index overflows
the unguarded increments: set_free and set_range_free compute max + 1 for the
back-neighbor probe, set_used computes index + 1 for the upper split part,
and set_first_used computes min + 1 for the remainder; each is an arithmetic
overflow at usize MAX, modelled here as the overflow error. -/
theorem boundary_max_operations_overflow :
    FreeRanges.set_free [] USIZE_MAX = .error .overflow ∧
    FreeRanges.set_range_free [] ⟨5, USIZE_MAX⟩ = .error .overflow ∧
    FreeRanges.set_used [⟨USIZE_MAX, USIZE_MAX⟩] USIZE_MAX = .error .overflow ∧
    FreeRanges.set_first_used [⟨USIZE_MAX, USIZE_MAX⟩] = .error .overflow :=
  ⟨by rfl, by rfl, by rfl, by rfl⟩

example : FreeRanges.set_free [] 5 = .ok (true, [⟨5, 5⟩]) := by rfl
example : FreeRanges.set_free [⟨5, 5⟩] 6 = .ok (true, [⟨5, 6⟩]) := by rfl
example : FreeRanges.set_free [⟨5, 6⟩] 4 = .ok (true, [⟨4, 6⟩]) := by rfl
example : FreeRanges.set_used [⟨4, 6⟩] 5 = .ok (true, [⟨4, 4⟩, ⟨6, 6⟩]) := by rfl
example : FreeRanges.set_first_used FreeRanges.with_all_free
    = .ok (some 0, [⟨1, USIZE_MAX⟩]) := by rfl
example : FreeRanges.set_range_free [⟨10, 20⟩] ⟨15, 25⟩ = .ok (true, [⟨10, 25⟩]) := by rfl
example : FreeRanges.set_free [] USIZE_MAX = .error .overflow := by rfl
example : FreeRanges.set_range_free [⟨4, 5⟩, ⟨10, 12⟩] ⟨3, 9⟩
    = .ok (true, [⟨3, 9⟩, ⟨10, 12⟩]) := by rfl
example : FreeRanges.set_range_free [⟨4, 5⟩, ⟨7, 8⟩] ⟨3, 9⟩ = .ok (true, [⟨7, 8⟩]) := by rfl
example : ¬ SetInv [⟨3, 9⟩, ⟨10, 12⟩] := by decide
example : SetInv [⟨2, 4⟩] := by decide
